import Mathlib

set_option maxRecDepth 40000

/-!
Shallow embedding of the claude-rlm memory store (Rust) in Lean 4.

Conventions of the embedding:
* Rust `String`/`&str` is Lean `String`; `s.len()` (UTF-8 byte count) is
  `rsLen`, computed from the character list with `Char.utf8Size`.
* Byte-index slicing `&s[..k]`, which panics in Rust when `k` is not a
  character boundary, is `byteSlice : String → Nat → Option String`
  (`none` models the panic).
* `str::floor_char_boundary` composed with slicing is `takeFloor`.
* SQLite tables are lists of row structures; SQL statements become
  explicit list transformations.  Results of read-only SQL queries that
  feed a function are modelled as fields of an input-state structure.
* `f64` arithmetic on small quantities (confidences, scores, ratios) is
  modelled exactly over `ℚ`; the transcendental recency factor
  `recency_boost(hours_between(..))` of the ranker is abstracted into a
  `recencyOf` parameter, since `exp` and wall-clock parsing have no exact
  executable embedding.  None of the claims below depends on its value.
-/

/-- UTF-8 byte length of a character list (Rust `str::len`). -/
def utf8Len (cs : List Char) : Nat :=
  cs.foldr (fun c n => c.utf8Size + n) 0

/-- Rust `String::len` / `str::len`: UTF-8 byte count. -/
def rsLen (s : String) : Nat :=
  utf8Len s.data

/-- Byte-prefix of a character list: `&s[..k]`.  Returns `none` (panic)
when `k` overruns the string or falls strictly inside a multi-byte
character. -/
def byteTake : List Char → Nat → Option (List Char)
  | _, 0 => some []
  | [], _ + 1 => none
  | c :: cs, k + 1 =>
    if c.utf8Size ≤ k + 1 then
      (byteTake cs (k + 1 - c.utf8Size)).map (c :: ·)
    else
      none

/-- Rust byte slicing `&s[..k]`; `none` models the boundary panic. -/
def byteSlice (s : String) (k : Nat) : Option String :=
  (byteTake s.data k).map String.mk

/-- Prefix of a character list of at most `k` UTF-8 bytes, cut at the
last character boundary not beyond `k`.  This is the composition
`&s[..s.floor_char_boundary(k)]`, which never panics. -/
def takeFloor : List Char → Nat → List Char
  | [], _ => []
  | c :: cs, k => if c.utf8Size ≤ k then c :: takeFloor cs (k - c.utf8Size) else []

/-- `s.floor_char_boundary(i)` itself: the byte index of the cut made by
`takeFloor`. -/
def floorCharBoundary (s : String) (i : Nat) : Nat :=
  utf8Len (takeFloor s.data i)

namespace Inject

/-- `truncate` from `src/inject/mod.rs`: keeps `s` when it has at most
`max` bytes, otherwise cuts at `floor_char_boundary(max)` and appends an
ellipsis.  Total: this variant never panics. -/
def truncate (s : String) (max : Nat) : String :=
  if rsLen s ≤ max then s else String.mk (takeFloor s.data max) ++ "..."

end Inject

namespace Distill

/-- `truncate` from `src/indexer/distill.rs`: keeps `s` when it has at
most `max` bytes, otherwise slices at the raw byte index `max` — with no
character-boundary adjustment — and appends an ellipsis.  `none` models
the Rust panic on a non-boundary index. -/
def truncate (s : String) (max : Nat) : Option String :=
  if rsLen s ≤ max then some s else (byteSlice s max).map (· ++ "...")

end Distill

/-- A three-character string of two-byte characters (6 bytes), used to
exhibit a slice that falls inside a multi-byte character. -/
def eAcuteTriple : String :=
  String.mk (List.replicate 3 (Char.ofNat 233))

/-- C4 (claim as stated, refuted): the distiller's `truncate` helper is
claimed never to slice inside a multi-byte character for any input, but
`truncate("ééé", 5)` slices byte 5, which is strictly inside the third
two-byte character, and panics. -/
theorem distill_truncate_panics_mid_char :
    Distill.truncate eAcuteTriple 5 = none := by
  decide

/-- The safe `truncate` of `src/inject/mod.rs` on the same input: the cut
retreats to byte 4, a character boundary, and no panic occurs. -/
theorem inject_truncate_total_on_same_input :
    Inject.truncate eAcuteTriple 5 = String.mk (List.replicate 2 (Char.ofNat 233)) ++ "..." := by
  decide

/-! ## Knowledge distiller: agreement test (`src/indexer/distill.rs`) -/

/-- Rust `str::to_lowercase`, modelled as per-character lowering
(`char::to_lowercase` special multi-character cases do not occur in the
ASCII-heavy inputs of this code path). -/
def toLowercase (s : String) : String :=
  String.mk (s.data.map Char.toLower)

/-- Word accumulator for `splitWhitespace`; the second argument is the
reversed current word. -/
def splitWsAux : List Char → List Char → List String
  | [], acc => if acc = [] then [] else [String.mk acc.reverse]
  | c :: cs, acc =>
    if c.isWhitespace then
      if acc = [] then splitWsAux cs [] else String.mk acc.reverse :: splitWsAux cs []
    else
      splitWsAux cs (c :: acc)

/-- Rust `str::split_whitespace`: split on whitespace characters,
dropping empty pieces. -/
def splitWhitespace (s : String) : List String :=
  splitWsAux s.data []

/-- The fixed English stop list of `contents_agree`. -/
def common_words : List String :=
  ["the", "and", "for", "with", "this", "that", "from", "have", "will",
   "use", "uses", "used", "using", "into", "than", "over", "also"]

/-- The significant-word set of one content string: lowercase, split on
whitespace, keep words of more than 3 bytes that are not stop words,
collected into a set (Rust `HashSet<&str>`). -/
def significantWords (s : String) : Finset String :=
  ((splitWhitespace (toLowercase s)).filter
    (fun w => 3 < rsLen w ∧ w ∉ common_words)).toFinset

/-- `contents_agree` from `src/indexer/distill.rs`.  The `f64`
comparison `overlap / total > 0.4` is modelled exactly over `ℚ` as
`5 * overlap > 2 * total`. -/
def contents_agree (a b : String) : Bool :=
  let a_words := significantWords a
  let b_words := significantWords b
  if a_words = ∅ ∨ b_words = ∅ then
    true
  else
    2 * min a_words.card b_words.card < 5 * (a_words ∩ b_words).card

/-- The agreement test as the specification words it: tokenize both
sides (lowercase, whitespace-separated words longer than 3 bytes, stop
words removed, as a set), and agree exactly when either token set is
empty or the intersection size exceeds 0.4 of the smaller set's size. -/
def agreeSpec (a b : String) : Prop :=
  let ta := (splitWhitespace (toLowercase a)).toFinset.filter
    (fun w => 3 < rsLen w ∧ w ∉ common_words)
  let tb := (splitWhitespace (toLowercase b)).toFinset.filter
    (fun w => 3 < rsLen w ∧ w ∉ common_words)
  ta = ∅ ∨ tb = ∅ ∨ ((ta ∩ tb).card : ℚ) / (min ta.card tb.card : ℚ) > 2 / 5

/-- Tokenizing then deduplicating agrees with deduplicating then
filtering. -/
theorem significantWords_eq_filter (s : String) :
    significantWords s =
      (splitWhitespace (toLowercase s)).toFinset.filter
        (fun w => 3 < rsLen w ∧ w ∉ common_words) := by
  classical
  unfold significantWords
  ext w
  simp [List.mem_toFinset, List.mem_filter, Finset.mem_filter, and_comm]

/-- C7 (confirmed): the implemented agreement test holds if and only if
the specification's description of it holds. -/
theorem contents_agree_iff_spec (a b : String) :
    contents_agree a b = true ↔ agreeSpec a b := by
  classical
  unfold contents_agree agreeSpec
  rw [← significantWords_eq_filter a, ← significantWords_eq_filter b]
  set ta := significantWords a with hta
  set tb := significantWords b with htb
  by_cases hempty : ta = ∅ ∨ tb = ∅
  · simp [hempty]
    tauto
  · push_neg at hempty
    obtain ⟨ha, hb⟩ := hempty
    have hcard : 0 < min ta.card tb.card := by
      have h1 : 0 < ta.card := Finset.card_pos.mpr (Finset.nonempty_iff_ne_empty.mpr ha)
      have h2 : 0 < tb.card := Finset.card_pos.mpr (Finset.nonempty_iff_ne_empty.mpr hb)
      omega
    have hne : ¬ (ta = ∅ ∨ tb = ∅) := by tauto
    simp only [if_neg hne, decide_eq_true_eq]
    constructor
    · intro h
      right; right
      rw [gt_iff_lt, div_lt_div_iff (by norm_num) (by exact_mod_cast hcard)]
      push_cast
      exact_mod_cast by linarith [h]
    · intro h
      rcases h with h | h | h
      · exact absurd h ha
      · exact absurd h hb
      · rw [gt_iff_lt, div_lt_div_iff (by norm_num) (by exact_mod_cast hcard)] at h
        have : (2 : ℚ) * min ta.card tb.card < 5 * (ta ∩ tb).card := by push_cast at h ⊢; linarith
        exact_mod_cast this

/-! ## Knowledge table and `upsert_knowledge` (`src/indexer/distill.rs`) -/

/-- One row of the `knowledge` table (`src/db/schema.rs`).  Timestamps
are abstract ticks (`Nat`); `confidence REAL` is exact `ℚ`. -/
structure KnowledgeRow where
  id : Nat
  session_id : String
  category : String
  subject : String
  content : String
  confidence : ℚ
  created_at : Nat
  last_confirmed : Option Nat
  superseded_by : Option Nat
deriving Repr, DecidableEq

/-- The `knowledge` table plus the autoincrement counter and the clock
(`datetime('now')`). -/
structure KnowledgeDb where
  rows : List KnowledgeRow
  nextId : Nat
  now : Nat
deriving Repr

/-- Rows matching the upsert lookup's WHERE clause:
`subject = ?1 AND category = ?2 AND superseded_by IS NULL`. -/
def activeMatches (db : KnowledgeDb) (category subject : String) : List KnowledgeRow :=
  db.rows.filter
    (fun r => r.subject = subject ∧ r.category = category ∧ r.superseded_by = none)

/-- `ORDER BY created_at DESC LIMIT 1` over a candidate list: the first
row carrying the maximal `created_at`. -/
def latestOf : List KnowledgeRow → Option KnowledgeRow
  | [] => none
  | r :: rest =>
    match latestOf rest with
    | none => some r
    | some b => if b.created_at > r.created_at then some b else some r

/-- The existing-entry lookup of `upsert_knowledge`. -/
def lookupExisting (db : KnowledgeDb) (category subject : String) : Option KnowledgeRow :=
  latestOf (activeMatches db category subject)

/-- `UPDATE knowledge SET ... WHERE id = i`, as a row map. -/
def updateRowById (rows : List KnowledgeRow) (i : Nat)
    (f : KnowledgeRow → KnowledgeRow) : List KnowledgeRow :=
  rows.map (fun r => if r.id = i then f r else r)

/-- The SET clause of the confirmation UPDATE:
`confidence = min(confidence + 0.1, 1.0), last_confirmed = now`. -/
def confirmUpdate (now : Nat) (r : KnowledgeRow) : KnowledgeRow :=
  { r with confidence := min (r.confidence + 1/10) 1, last_confirmed := some now }

/-- The SET clause of the contradiction UPDATE: `confidence = confidence * 0.5`. -/
def halveUpdate (r : KnowledgeRow) : KnowledgeRow :=
  { r with confidence := r.confidence * (1/2) }

/-- The SET clause of the supersession UPDATE: `superseded_by = new_id`. -/
def supersedeUpdate (new_id : Nat) (r : KnowledgeRow) : KnowledgeRow :=
  { r with superseded_by := some new_id }

/-- The VALUES row of the knowledge INSERT (id from the autoincrement
counter, `created_at` defaulted to now, other defaulted columns NULL). -/
def insertedRow (session_id category subject content : String) (confidence : ℚ)
    (id now : Nat) : KnowledgeRow :=
  { id := id, session_id := session_id, category := category, subject := subject,
    content := content, confidence := confidence, created_at := now,
    last_confirmed := none, superseded_by := none }

/-- `upsert_knowledge` from `src/indexer/distill.rs`.  Returns the new
table state and the function's `usize` result: 1 when a row was created,
0 when an existing row was confirmed (per the source doc comment).
`(confidence + 0.1).min(1.0)` and `confidence * 0.5` are exact over
`ℚ`. -/
def upsert_knowledge (db : KnowledgeDb) (session_id category subject content : String)
    (confidence : ℚ) : KnowledgeDb × Nat :=
  match lookupExisting db category subject with
  | some existing =>
    if contents_agree existing.content content then
      ({ db with rows := updateRowById db.rows existing.id (confirmUpdate db.now) }, 0)
    else
      let new_id := db.nextId
      let rows1 := updateRowById db.rows existing.id halveUpdate
      let rows2 := rows1 ++ [insertedRow session_id category subject content confidence new_id db.now]
      let rows3 := updateRowById rows2 existing.id (supersedeUpdate new_id)
      ({ db with rows := rows3, nextId := new_id + 1 }, 1)
  | none =>
    ({ db with
        rows := db.rows ++ [insertedRow session_id category subject content confidence db.nextId db.now],
        nextId := db.nextId + 1 }, 1)

/-- Every row id in the table is below the autoincrement counter. -/
def FreshIds (db : KnowledgeDb) : Prop :=
  ∀ r ∈ db.rows, r.id < db.nextId

/-- `latestOf` only returns members of its input list. -/
theorem latestOf_mem {l : List KnowledgeRow} {r : KnowledgeRow}
    (h : latestOf l = some r) : r ∈ l := by
  induction l with
  | nil => simp [latestOf] at h
  | cons a rest ih =>
    simp only [latestOf] at h
    cases hrest : latestOf rest with
    | none => rw [hrest] at h; simp at h; simp [h]
    | some b =>
      rw [hrest] at h
      by_cases hgt : b.created_at > a.created_at
      · simp [hgt] at h; right; exact ih (h ▸ hrest)
      · simp [hgt] at h; simp [h]

/-- The row found by the upsert lookup is an active row of the table
with the looked-up subject and category. -/
theorem lookupExisting_mem {db : KnowledgeDb} {category subject : String}
    {r : KnowledgeRow} (h : lookupExisting db category subject = some r) :
    r ∈ db.rows ∧ r.subject = subject ∧ r.category = category ∧ r.superseded_by = none := by
  have hm := latestOf_mem h
  unfold activeMatches at hm
  rw [List.mem_filter] at hm
  obtain ⟨hmem, hp⟩ := hm
  simp only [decide_eq_true_eq] at hp
  exact ⟨hmem, hp⟩

/-- An UPDATE by id rewrites a matching row through `f`. -/
theorem updateRowById_mem_updated {rows : List KnowledgeRow} {i : Nat}
    (f : KnowledgeRow → KnowledgeRow) {r : KnowledgeRow}
    (hr : r ∈ rows) (hid : r.id = i) : f r ∈ updateRowById rows i f := by
  unfold updateRowById
  refine List.mem_map.mpr ⟨r, hr, ?_⟩
  simp [hid]

/-- An UPDATE by id leaves rows with a different id unchanged. -/
theorem updateRowById_mem_other {rows : List KnowledgeRow} {i : Nat}
    (f : KnowledgeRow → KnowledgeRow) {r : KnowledgeRow}
    (hr : r ∈ rows) (hid : r.id ≠ i) : r ∈ updateRowById rows i f := by
  unfold updateRowById
  refine List.mem_map.mpr ⟨r, hr, ?_⟩
  simp [hid]

/-- An UPDATE never changes the number of rows. -/
theorem updateRowById_length (rows : List KnowledgeRow) (i : Nat)
    (f : KnowledgeRow → KnowledgeRow) :
    (updateRowById rows i f).length = rows.length := by
  simp [updateRowById]

/-- C2 (confirmed): when the upsert lookup finds an active entry with
the requested (category, subject), then — if the contents agree — its
confidence becomes `min(old + 0.1, 1.0)`, its `last_confirmed` is set to
now, no row is inserted and the result is "confirmed" (0); if the
contents disagree, the old entry's confidence is halved, a new row with
the given content and confidence is inserted under the fresh id, the old
entry's `superseded_by` points at that id — hiding it from the active
set the retrieval queries filter on — every other row is unchanged, and
the result is "created" (1). -/
theorem upsert_knowledge_spec (db : KnowledgeDb)
    (sid cat subj cont : String) (conf : ℚ) (ex : KnowledgeRow)
    (hfresh : FreshIds db)
    (hlook : lookupExisting db cat subj = some ex) :
    (contents_agree ex.content cont = true →
      (upsert_knowledge db sid cat subj cont conf).2 = 0 ∧
      (upsert_knowledge db sid cat subj cont conf).1.rows.length = db.rows.length ∧
      { ex with confidence := min (ex.confidence + 1/10) 1,
                last_confirmed := some db.now }
        ∈ (upsert_knowledge db sid cat subj cont conf).1.rows ∧
      (∀ r ∈ db.rows, r.id ≠ ex.id →
        r ∈ (upsert_knowledge db sid cat subj cont conf).1.rows)) ∧
    (contents_agree ex.content cont = false →
      (upsert_knowledge db sid cat subj cont conf).2 = 1 ∧
      (upsert_knowledge db sid cat subj cont conf).1.rows.length = db.rows.length + 1 ∧
      { id := db.nextId, session_id := sid, category := cat, subject := subj,
        content := cont, confidence := conf, created_at := db.now,
        last_confirmed := none, superseded_by := none }
        ∈ (upsert_knowledge db sid cat subj cont conf).1.rows ∧
      { ex with confidence := ex.confidence * (1/2),
                superseded_by := some db.nextId }
        ∈ (upsert_knowledge db sid cat subj cont conf).1.rows ∧
      (∀ r ∈ db.rows, r.id ≠ ex.id →
        r ∈ (upsert_knowledge db sid cat subj cont conf).1.rows) ∧
      { ex with confidence := ex.confidence * (1/2),
                superseded_by := some db.nextId }
        ∉ activeMatches (upsert_knowledge db sid cat subj cont conf).1 cat subj) := by
  obtain ⟨hexmem, -, -, -⟩ := lookupExisting_mem hlook
  have hexlt : ex.id < db.nextId := hfresh ex hexmem
  constructor
  · intro hagree
    have hres : upsert_knowledge db sid cat subj cont conf =
        ({ db with rows := updateRowById db.rows ex.id (confirmUpdate db.now) }, 0) := by
      simp only [upsert_knowledge, hlook]
      rw [if_pos hagree]
    rw [hres]
    refine ⟨rfl, updateRowById_length _ _ _, ?_, ?_⟩
    · exact updateRowById_mem_updated _ hexmem rfl
    · intro r hr hne
      exact updateRowById_mem_other _ hr hne
  · intro hdis
    have hnotagree : ¬ contents_agree ex.content cont = true := by
      simp [hdis]
    have hres : upsert_knowledge db sid cat subj cont conf =
        ({ db with
            rows := updateRowById
              (updateRowById db.rows ex.id halveUpdate ++
                [insertedRow sid cat subj cont conf db.nextId db.now])
              ex.id (supersedeUpdate db.nextId),
            nextId := db.nextId + 1 }, 1) := by
      simp only [upsert_knowledge, hlook]
      rw [if_neg hnotagree]
    rw [hres]
    have hnewid : (insertedRow sid cat subj cont conf db.nextId db.now).id ≠ ex.id := by
      simp only [insertedRow]
      omega
    have hnewmem : insertedRow sid cat subj cont conf db.nextId db.now ∈
        updateRowById db.rows ex.id halveUpdate ++
          [insertedRow sid cat subj cont conf db.nextId db.now] := by
      simp
    refine ⟨rfl, ?_, ?_, ?_, ?_, ?_⟩
    · simp [updateRowById, insertedRow]
    · exact updateRowById_mem_other _ hnewmem hnewid
    · have h1 : halveUpdate ex ∈
          updateRowById db.rows ex.id halveUpdate ++
            [insertedRow sid cat subj cont conf db.nextId db.now] :=
        List.mem_append_left _ (updateRowById_mem_updated _ hexmem rfl)
      have h2 : (halveUpdate ex).id = ex.id := rfl
      have := updateRowById_mem_updated (supersedeUpdate db.nextId) h1 h2
      simpa [halveUpdate, supersedeUpdate] using this
    · intro r hr hne
      have h1 : r ∈ updateRowById db.rows ex.id halveUpdate ++
            [insertedRow sid cat subj cont conf db.nextId db.now] :=
        List.mem_append_left _ (updateRowById_mem_other _ hr hne)
      exact updateRowById_mem_other _ h1 hne
    · intro hmem
      unfold activeMatches at hmem
      rw [List.mem_filter] at hmem
      simp at hmem

/-- A concrete knowledge row for exercising the upsert. -/
def kRow0 : KnowledgeRow :=
  { id := 0, session_id := "s1", category := "decision", subject := "database",
    content := "use sqlite because embedded and simple", confidence := 7/10,
    created_at := 0, last_confirmed := none, superseded_by := none }

/-- A one-row knowledge table with the clock at tick 5. -/
def kDb0 : KnowledgeDb :=
  { rows := [kRow0], nextId := 1, now := 5 }

/-- Witness for C2: the upsert theorem applied to the concrete one-row
table against a disagreeing second content. -/
theorem upsert_knowledge_spec_witness :
    (upsert_knowledge kDb0 "s2" "decision" "database" "use postgres for scalability" (8/10)).2 = 1 ∧
    (upsert_knowledge kDb0 "s2" "decision" "database" "use postgres for scalability" (8/10)).1.rows.length = kDb0.rows.length + 1 ∧
    { id := kDb0.nextId, session_id := "s2", category := "decision", subject := "database",
      content := "use postgres for scalability", confidence := 8/10, created_at := kDb0.now,
      last_confirmed := none, superseded_by := none }
      ∈ (upsert_knowledge kDb0 "s2" "decision" "database" "use postgres for scalability" (8/10)).1.rows ∧
    { kRow0 with confidence := kRow0.confidence * (1/2),
                 superseded_by := some kDb0.nextId }
      ∈ (upsert_knowledge kDb0 "s2" "decision" "database" "use postgres for scalability" (8/10)).1.rows ∧
    (∀ r ∈ kDb0.rows, r.id ≠ kRow0.id →
      r ∈ (upsert_knowledge kDb0 "s2" "decision" "database" "use postgres for scalability" (8/10)).1.rows) ∧
    { kRow0 with confidence := kRow0.confidence * (1/2),
                 superseded_by := some kDb0.nextId }
      ∉ activeMatches (upsert_knowledge kDb0 "s2" "decision" "database" "use postgres for scalability" (8/10)).1 "decision" "database" :=
  (upsert_knowledge_spec kDb0 "s2" "decision" "database" "use postgres for scalability"
      (8/10) kRow0
      (by intro r hr; simp only [kDb0, List.mem_singleton] at hr; simp [hr, kRow0, kDb0])
      (by rfl)).2
    (by decide)

/-! ## Conversation indexer (`src/indexer/conversation.rs`) -/

/-- One row of the `turns` table (the columns the indexer writes). -/
structure TurnRow where
  id : Nat
  session_id : String
  turn_number : Nat
  role : String
  turn_type : String
  content : String
  metadata : Option String
deriving Repr, DecidableEq

/-- One row of the `turn_files` table; its primary key is
`(turn_id, file_path)`. -/
structure TurnFileRow where
  turn_id : Nat
  file_path : String
  action : String
deriving Repr, DecidableEq

/-- The tables `index_turn` touches, plus the turn autoincrement
counter. -/
structure ConvDb where
  turns : List TurnRow
  turn_files : List TurnFileRow
  nextTurnId : Nat
deriving Repr

/-- The `turn_number` column of one session's turns, in row order. -/
def sessionNumbers (db : ConvDb) (session_id : String) : List Nat :=
  (db.turns.filter (fun t => t.session_id = session_id)).map (fun t => t.turn_number)

/-- `next_turn_number`: `SELECT MAX(turn_number) ... WHERE session_id = ?`,
with the NULL of an empty session read as 0 (`max.unwrap_or(0)`), plus
one. -/
def next_turn_number (db : ConvDb) (session_id : String) : Nat :=
  (sessionNumbers db session_id).foldl Nat.max 0 + 1

/-- `INSERT OR IGNORE INTO turn_files`: a row whose primary key
`(turn_id, file_path)` already exists is dropped silently. -/
def insertTurnFile (tfs : List TurnFileRow) (turn_id : Nat)
    (path action : String) : List TurnFileRow :=
  if tfs.any (fun r => r.turn_id = turn_id ∧ r.file_path = path) then tfs
  else tfs ++ [{ turn_id := turn_id, file_path := path, action := action }]

/-- `index_turn` from `src/indexer/conversation.rs`: assign the next
turn number, insert the turn row, then insert each `(file_path, action)`
reference with OR IGNORE.  Returns the new state and
`last_insert_rowid()`. -/
def index_turn (db : ConvDb) (session_id role turn_type content : String)
    (metadata : Option String) (files : List (String × String)) : ConvDb × Nat :=
  let turn_number := next_turn_number db session_id
  let turn_id := db.nextTurnId
  let turns1 := db.turns ++
    [{ id := turn_id, session_id := session_id, turn_number := turn_number,
       role := role, turn_type := turn_type, content := content, metadata := metadata }]
  let tfs1 := files.foldl (fun acc pa => insertTurnFile acc turn_id pa.1 pa.2) db.turn_files
  ({ turns := turns1, turn_files := tfs1, nextTurnId := turn_id + 1 }, turn_id)

/-- One recorded `index_turn` invocation. -/
structure TurnCall where
  session_id : String
  role : String
  turn_type : String
  content : String
  metadata : Option String
  files : List (String × String)

/-- The empty store. -/
def emptyConvDb : ConvDb :=
  { turns := [], turn_files := [], nextTurnId := 1 }

/-- Replay a sequence of `index_turn` calls against a store state. -/
def applyCalls (db : ConvDb) : List TurnCall → ConvDb
  | [] => db
  | c :: rest =>
    applyCalls (index_turn db c.session_id c.role c.turn_type c.content c.metadata c.files).1 rest

/-- Folding `Nat.max` over `[1, …, n]` starting at 0 gives `n`. -/
theorem foldl_max_range' (n : Nat) : (List.range' 1 n).foldl Nat.max 0 = n := by
  induction n with
  | zero => rfl
  | succ m ih =>
    rw [List.range'_1_concat, List.foldl_append, ih]
    simp [Nat.max_def]
    omega

/-- One `index_turn` call keeps every session's turn-number column of
the form `[1, …, N]`; the indexed session grows by its next number. -/
theorem index_turn_preserves_numbering (db : ConvDb)
    (sid role ty content : String) (md : Option String) (files : List (String × String))
    (hinv : ∀ s, sessionNumbers db s = List.range' 1 (sessionNumbers db s).length) :
    ∀ s, sessionNumbers (index_turn db sid role ty content md files).1 s =
      List.range' 1 (sessionNumbers (index_turn db sid role ty content md files).1 s).length := by
  intro s
  by_cases hs : sid = s
  · subst hs
    have hnew : sessionNumbers (index_turn db sid role ty content md files).1 sid =
        sessionNumbers db sid ++ [next_turn_number db sid] := by
      simp [index_turn, sessionNumbers]
    rw [hnew]
    have hmax : next_turn_number db sid = (sessionNumbers db sid).length + 1 := by
      unfold next_turn_number
      rw [hinv sid, foldl_max_range']
      rw [hinv sid]
      simp
    rw [hmax, hinv sid]
    rw [List.length_append, List.length_range']
    simp [List.range'_1_concat]
    omega
  · have hsame : sessionNumbers (index_turn db sid role ty content md files).1 s =
        sessionNumbers db s := by
      simp [index_turn, sessionNumbers, hs]
    rw [hsame]
    exact hinv s

/-- C5 (confirmed): starting from the empty store, after any sequence of
`index_turn` calls every session's turn numbers are exactly `[1, …, N]`
in row-insertion order — dense, 1-based, unique, strictly increasing
with insertion order — and the next number `index_turn` would assign is
`max + 1 = N + 1`. -/
theorem index_turn_numbering (calls : List TurnCall) (s : String) :
    sessionNumbers (applyCalls emptyConvDb calls) s =
      List.range' 1 (sessionNumbers (applyCalls emptyConvDb calls) s).length ∧
    next_turn_number (applyCalls emptyConvDb calls) s =
      (sessionNumbers (applyCalls emptyConvDb calls) s).length + 1 := by
  have hinv : ∀ (db : ConvDb),
      (∀ t, sessionNumbers db t = List.range' 1 (sessionNumbers db t).length) →
      ∀ (cs : List TurnCall) (t : String),
        sessionNumbers (applyCalls db cs) t =
          List.range' 1 (sessionNumbers (applyCalls db cs) t).length := by
    intro db hdb cs
    induction cs generalizing db with
    | nil => exact hdb
    | cons c rest ih =>
      intro t
      exact ih _ (index_turn_preserves_numbering db c.session_id c.role c.turn_type
        c.content c.metadata c.files hdb) t
  have hbase : ∀ t, sessionNumbers emptyConvDb t =
      List.range' 1 (sessionNumbers emptyConvDb t).length := by
    intro t; rfl
  have hmain := hinv emptyConvDb hbase calls s
  refine ⟨hmain, ?_⟩
  unfold next_turn_number
  rw [hmain, foldl_max_range', hmain]
  simp

/-- First-occurrence-per-path deduplication: what a sequence of
`INSERT OR IGNORE` statements keyed on `(turn_id, file_path)` retains of
one turn's reference list.  `seen` holds the paths already inserted. -/
def dedupSeen (seen : List String) : List (String × String) → List (String × String)
  | [] => []
  | pa :: rest =>
    if pa.1 ∈ seen then dedupSeen seen rest
    else pa :: dedupSeen (pa.1 :: seen) rest

/-- The reference list with every repeated path dropped after its first
occurrence. -/
def dedupKeepFirst (files : List (String × String)) : List (String × String) :=
  dedupSeen [] files

/-- The row a file reference of turn `tid` becomes. -/
def mkTurnFile (tid : Nat) (pa : String × String) : TurnFileRow :=
  { turn_id := tid, file_path := pa.1, action := pa.2 }

/-- Characterization of the OR-IGNORE insert fold: over a base table
with no rows of turn `tid`, it appends exactly the
first-occurrence-deduplicated references. -/
theorem foldl_insertTurnFile (tid : Nat) (base : List TurnFileRow)
    (hbase : ∀ r ∈ base, r.turn_id ≠ tid) :
    ∀ (fs : List (String × String)) (done : List (String × String)) (seen : List String),
      (∀ p, p ∈ seen ↔ p ∈ done.map Prod.fst) →
      fs.foldl (fun acc pa => insertTurnFile acc tid pa.1 pa.2)
          (base ++ done.map (mkTurnFile tid)) =
        base ++ (done ++ dedupSeen seen fs).map (mkTurnFile tid) := by
  intro fs
  induction fs with
  | nil =>
    intro done seen _
    simp [dedupSeen]
  | cons pa rest ih =>
    intro done seen hseen
    have hany : ((base ++ done.map (mkTurnFile tid)).any
        (fun r => r.turn_id = tid ∧ r.file_path = pa.1) = true) ↔ pa.1 ∈ seen := by
      simp only [List.any_eq_true, List.mem_append, List.mem_map, decide_eq_true_eq]
      constructor
      · rintro ⟨r, hr | ⟨q, hq, rfl⟩, hcond⟩
        · exact absurd hcond.1 (hbase r hr)
        · rw [hseen]
          exact List.mem_map.mpr ⟨q, hq, hcond.2⟩
      · intro hp
        rw [hseen] at hp
        obtain ⟨q, hq, hq1⟩ := List.mem_map.mp hp
        exact ⟨mkTurnFile tid q, Or.inr ⟨q, hq, rfl⟩, rfl, hq1⟩
    by_cases hp : pa.1 ∈ seen
    · have hstep : insertTurnFile (base ++ done.map (mkTurnFile tid)) tid pa.1 pa.2 =
          base ++ done.map (mkTurnFile tid) := by
        unfold insertTurnFile
        rw [if_pos (hany.mpr hp)]
      rw [List.foldl_cons, hstep, ih done seen hseen]
      simp [dedupSeen, hp]
    · have hstep : insertTurnFile (base ++ done.map (mkTurnFile tid)) tid pa.1 pa.2 =
          base ++ (done ++ [pa]).map (mkTurnFile tid) := by
        unfold insertTurnFile
        rw [if_neg (fun h => hp (hany.mp h))]
        simp [mkTurnFile]
      rw [List.foldl_cons, hstep]
      have hseen2 : ∀ p, p ∈ pa.1 :: seen ↔ p ∈ (done ++ [pa]).map Prod.fst := by
        intro p
        simp [hseen p, or_comm]
      rw [ih (done ++ [pa]) (pa.1 :: seen) hseen2]
      simp [dedupSeen, hp]

/-- The deduplicated reference list has pairwise-distinct paths, none of
them previously seen. -/
theorem dedupSeen_nodup (fs : List (String × String)) :
    ∀ seen : List String,
      ((dedupSeen seen fs).map Prod.fst).Nodup ∧
      ∀ p ∈ (dedupSeen seen fs).map Prod.fst, p ∉ seen := by
  induction fs with
  | nil => intro seen; simp [dedupSeen]
  | cons pa rest ih =>
    intro seen
    by_cases hp : pa.1 ∈ seen
    · have := ih seen
      simp only [dedupSeen, if_pos hp]
      exact this
    · have := ih (pa.1 :: seen)
      simp only [dedupSeen, if_neg hp, List.map_cons]
      constructor
      · rw [List.nodup_cons]
        refine ⟨?_, this.1⟩
        intro hmem
        exact (this.2 pa.1 hmem) (List.mem_cons_self _ _)
      · intro p hmem
        rcases List.mem_cons.mp hmem with h | h
        · exact h ▸ hp
        · intro hpseen
          exact (this.2 p h) (List.mem_cons_of_mem _ hpseen)

/-- C10 (confirmed): when `index_turn` is handed several references with
the same file path, only the first `(file_path, action)` pair is stored
for the new turn and the later ones are dropped by the
`(turn_id, file_path)` primary key's OR IGNORE; each turn ends up with
at most one `turn_files` row per path. -/
theorem index_turn_file_dedup (db : ConvDb)
    (sid role ty content : String) (md : Option String) (files : List (String × String))
    (hfresh : ∀ r ∈ db.turn_files, r.turn_id ≠ db.nextTurnId) :
    (index_turn db sid role ty content md files).1.turn_files =
      db.turn_files ++ (dedupKeepFirst files).map (mkTurnFile db.nextTurnId) ∧
    ((dedupKeepFirst files).map Prod.fst).Nodup := by
  constructor
  · have h := foldl_insertTurnFile db.nextTurnId db.turn_files hfresh files [] []
      (by intro p; simp)
    simp only [List.map_nil, List.append_nil] at h
    simpa [index_turn, dedupKeepFirst] using h
  · exact (dedupSeen_nodup files []).1

/-- Witness for C10: indexing a turn with two references to `a.rs` and
one to `b.rs` stores only the first `a.rs` pair. -/
theorem index_turn_file_dedup_witness :
    (index_turn emptyConvDb "s" "assistant" "code_edit" "c" none
        [("a.rs", "edit"), ("a.rs", "write"), ("b.rs", "read")]).1.turn_files =
      emptyConvDb.turn_files ++
        (dedupKeepFirst [("a.rs", "edit"), ("a.rs", "write"), ("b.rs", "read")]).map
          (mkTurnFile emptyConvDb.nextTurnId) ∧
    ((dedupKeepFirst [("a.rs", "edit"), ("a.rs", "write"), ("b.rs", "read")]).map Prod.fst).Nodup :=
  index_turn_file_dedup emptyConvDb "s" "assistant" "code_edit" "c" none
    [("a.rs", "edit"), ("a.rs", "write"), ("b.rs", "read")]
    (by intro r hr; simp [emptyConvDb] at hr)

/-! ## Background task queue (`src/db/tasks.rs`) -/

/-- One row of the `background_tasks` table. -/
structure TaskRow where
  id : Nat
  task_type : String
  status : String
  project_dir : String
  payload : Option String
  created_at : Nat
  started_at : Option Nat
  completed_at : Option Nat
  error : Option String
deriving Repr, DecidableEq

/-- The struct `claim_next_task` returns (`BackgroundTask`). -/
structure BackgroundTask where
  id : Nat
  task_type : String
  project_dir : String
  payload : Option String
deriving Repr, DecidableEq

/-- Ids of the rows with `status = 'pending'`. -/
def pendingIds (rows : List TaskRow) : List Nat :=
  (rows.filter (fun r => r.status = "pending")).map (fun r => r.id)

/-- The scalar subquery `SELECT id FROM background_tasks WHERE
status = 'pending' ORDER BY id ASC LIMIT 1`. -/
def minPendingId (rows : List TaskRow) : Option Nat :=
  (pendingIds rows).min?

/-- `claim_next_task` from `src/db/tasks.rs`: one UPDATE over the scalar
subquery with RETURNING, executed as a single atomic state transition.
Returns the new table and the returned row's fields. -/
def claim_next_task (rows : List TaskRow) (now : Nat) :
    List TaskRow × Option BackgroundTask :=
  match minPendingId rows with
  | none => (rows, none)
  | some i =>
    let rows1 := rows.map (fun r =>
      if r.id = i then { r with status := "running", started_at := some now } else r)
    match rows.find? (fun r => r.id = i) with
    | some r => (rows1, some { id := r.id, task_type := r.task_type,
                               project_dir := r.project_dir, payload := r.payload })
    | none => (rows1, none)

/-- With pairwise-distinct ids, `find?` by id recovers a member. -/
theorem find_id_of_mem {rows : List TaskRow} {r : TaskRow}
    (hnd : (rows.map (fun t => t.id)).Nodup) (hr : r ∈ rows) :
    rows.find? (fun t => t.id = r.id) = some r := by
  induction rows with
  | nil => cases hr
  | cons a rest ih =>
    rw [List.map_cons, List.nodup_cons] at hnd
    rcases List.mem_cons.mp hr with h | h
    · subst h
      simp [List.find?]
    · have hne : a.id ≠ r.id := by
        intro he
        exact hnd.1 (he ▸ List.mem_map.mpr ⟨r, h, rfl⟩)
      rw [List.find?_cons_of_neg _ (by simp [hne])]
      exact ih hnd.2 h
/-- C6 (confirmed): `claim_next_task` returns `None` and changes no row
when no task is pending; otherwise it transitions exactly the pending
task with the smallest id to `running` (recording `started_at`), returns
that task's id, type, project_dir and payload, and leaves every other
row unchanged. -/
theorem claim_next_task_spec (rows : List TaskRow) (now : Nat)
    (hnd : (rows.map (fun t => t.id)).Nodup) :
    (pendingIds rows = [] →
      claim_next_task rows now = (rows, none)) ∧
    (∀ r ∈ rows, r.status = "pending" →
      (∀ q ∈ rows, q.status = "pending" → r.id ≤ q.id) →
      (claim_next_task rows now).2 =
        some { id := r.id, task_type := r.task_type,
               project_dir := r.project_dir, payload := r.payload } ∧
      { r with status := "running", started_at := some now }
        ∈ (claim_next_task rows now).1 ∧
      (claim_next_task rows now).1.length = rows.length ∧
      (∀ q ∈ rows, q.id ≠ r.id → q ∈ (claim_next_task rows now).1)) := by
  constructor
  · intro hnone
    unfold claim_next_task minPendingId
    rw [hnone]
    rfl
  · intro r hr hpend hminimal
    have hrid : r.id ∈ pendingIds rows := by
      unfold pendingIds
      exact List.mem_map.mpr ⟨r, List.mem_filter.mpr ⟨hr, by simp [hpend]⟩, rfl⟩
    have hmin : minPendingId rows = some r.id := by
      unfold minPendingId
      have hle : ∀ j ∈ pendingIds rows, r.id ≤ j := by
        intro j hj
        unfold pendingIds at hj
        obtain ⟨q, hq, rfl⟩ := List.mem_map.mp hj
        rw [List.mem_filter] at hq
        exact hminimal q hq.1 (by simpa using hq.2)
      rw [List.min?_eq_some_iff (fun a => le_refl a) (fun a b => min_choice a b)
        (fun a b c => le_min_iff)]
      exact ⟨hrid, hle⟩
    have hfind := find_id_of_mem hnd hr
    have hres : claim_next_task rows now =
        (rows.map (fun q => if q.id = r.id then
            { q with status := "running", started_at := some now } else q),
         some { id := r.id, task_type := r.task_type,
                project_dir := r.project_dir, payload := r.payload }) := by
      unfold claim_next_task
      rw [hmin]
      simp only [hfind]
    rw [hres]
    refine ⟨rfl, ?_, by simp, ?_⟩
    · have := List.mem_map_of_mem (fun q => if q.id = r.id then
          ({ q with status := "running", started_at := some now } : TaskRow) else q) hr
      simpa using this
    · intro q hq hne
      have := List.mem_map_of_mem (fun t => if t.id = r.id then
          ({ t with status := "running", started_at := some now } : TaskRow) else t) hq
      simpa [hne] using this

/-- A completed task row with id 1. -/
def taskA : TaskRow :=
  { id := 1, task_type := "reindex_stale", status := "completed", project_dir := "/p",
    payload := none, created_at := 0, started_at := some 1, completed_at := some 2,
    error := none }

/-- A pending task row with id 2. -/
def taskB : TaskRow :=
  { id := 2, task_type := "distill_session", status := "pending", project_dir := "/p",
    payload := some "sess", created_at := 3, started_at := none, completed_at := none,
    error := none }

/-- A pending task row with id 3. -/
def taskC : TaskRow :=
  { id := 3, task_type := "shutdown", status := "pending", project_dir := "/p",
    payload := none, created_at := 4, started_at := none, completed_at := none,
    error := none }

/-- A concrete queue: one completed task and two pending ones. -/
def taskRows0 : List TaskRow := [taskA, taskB, taskC]

/-- Witness for C6: claiming against the concrete queue returns the
pending task with the smallest id (id 2), marks exactly it running, and
keeps the others. -/
theorem claim_next_task_spec_witness :
    (claim_next_task taskRows0 9).2 =
      some { id := taskB.id, task_type := taskB.task_type,
             project_dir := taskB.project_dir, payload := taskB.payload } ∧
    { taskB with status := "running", started_at := some 9 }
      ∈ (claim_next_task taskRows0 9).1 ∧
    (claim_next_task taskRows0 9).1.length = taskRows0.length ∧
    (∀ q ∈ taskRows0, q.id ≠ taskB.id → q ∈ (claim_next_task taskRows0 9).1) :=
  (claim_next_task_spec taskRows0 9 (by decide)).2 taskB (by decide) (by decide)
    (by decide)

/-! ## Ranker (`src/inject/ranking.rs`)

The Rust code sorts with the stable `slice::sort_by`; the embedding uses
the stable `List.insertionSort`, which produces the same ordering for
the same total preorder.  `recency_boost(hours_between(timestamp, now))`
is abstracted into the `recencyOf` parameter (see the file header). -/

/-- A row of `session_turns` / the FTS index (`src/db/search.rs`,
`TurnSearchResult`). -/
structure TurnSearchResult where
  turn_id : Nat
  session_id : String
  turn_number : Nat
  timestamp : String
  role : String
  turn_type : String
  content : String
  content_summary : Option String
  rank : ℚ
  files : List String
deriving Repr, DecidableEq

/-- `type_weight`: weight multiplier for different turn types. -/
def type_weight : String → ℚ
  | "decision" => 15/10
  | "checkpoint" => 14/10
  | "request" => 13/10
  | "code_edit" => 12/10
  | "explanation" => 1
  | "error" => 1
  | "plan" => 1
  | "file_read" => 5/10
  | "bash_cmd" => 3/10
  | _ => 5/10

/-- `file_affinity`: 1 plus half the number of turn files found in the
context files (1 when either side is empty). -/
def file_affinity (turn_files context_files : List String) : ℚ :=
  if context_files = [] ∨ turn_files = [] then 1
  else 1 + (turn_files.countP (fun f => context_files.contains f) : ℚ) * (5/10)

/-- `score_turn` with the recency factor supplied: type weight times
recency times file affinity, then a 1.1 bonus per content-length
threshold (100 and 500 bytes). -/
def score_turn (recencyOf : TurnSearchResult → ℚ) (t : TurnSearchResult)
    (context_files : List String) : ℚ :=
  let base := type_weight t.turn_type * recencyOf t * file_affinity t.files context_files
  let s1 := if 100 < rsLen t.content then base * (11/10) else base
  if 500 < rsLen t.content then s1 * (11/10) else s1

/-- `format_turn_for_injection`: `- **<Label>**[ [files]]: <content>\n`,
the content cut at the floor character boundary of byte 800 with an
ellipsis when longer than 800 bytes. -/
def format_turn_for_injection (t : TurnSearchResult) : String :=
  let type_label : String :=
    match t.turn_type with
    | "request" => "User"
    | "code_edit" => "Edit"
    | "file_read" => "Read"
    | "bash_cmd" => "Cmd"
    | "decision" => "Decision"
    | "checkpoint" => "Checkpoint"
    | "plan" => "Plan"
    | "error" => "Error"
    | _ => t.turn_type
  let files_str : String :=
    if t.files ≠ [] then " [" ++ String.intercalate ", " t.files ++ "]" else ""
  let content : String :=
    if 800 < rsLen t.content then String.mk (takeFloor t.content.data 800) ++ "..."
    else t.content
  "- **" ++ type_label ++ "**" ++ files_str ++ ": " ++ content ++ "\n"

/-- The byte size one turn contributes to the budget accounting. -/
def entrySize (t : TurnSearchResult) : Nat :=
  rsLen (format_turn_for_injection t)

/-- Score every turn and sort best-first (stable, score descending). -/
def sorted_scored (recencyOf : TurnSearchResult → ℚ) (turns : List TurnSearchResult)
    (context_files : List String) : List (ℚ × TurnSearchResult) :=
  (turns.map (fun t => (score_turn recencyOf t context_files, t))).insertionSort
    (fun a b => b.1 ≤ a.1)

/-- The selection loop of `ranked_select`: walk the sorted list
accumulating entry sizes; at the first entry that would overflow, keep
it (to be truncated) when more than 100 characters of budget remain,
then stop. -/
def select_within : List (ℚ × TurnSearchResult) → Nat → Nat → List (ℚ × TurnSearchResult)
  | [], _, _ => []
  | st :: rest, budget, used =>
    if budget < used + entrySize st.2 then
      if 100 < budget - used then [st] else []
    else
      st :: select_within rest budget (used + entrySize st.2)

/-- The turns `ranked_select` selects, in score order. -/
def selected_turns (recencyOf : TurnSearchResult → ℚ) (turns : List TurnSearchResult)
    (context_files : List String) (budget_chars : Nat) : List TurnSearchResult :=
  (select_within (sorted_scored recencyOf turns context_files) budget_chars 0).map
    (fun st => st.2)

/-- The selected turns re-sorted chronologically (`sort_by_key` on
`turn_number`, stable). -/
def chrono_selected (recencyOf : TurnSearchResult → ℚ) (turns : List TurnSearchResult)
    (context_files : List String) (budget_chars : Nat) : List TurnSearchResult :=
  (selected_turns recencyOf turns context_files budget_chars).insertionSort
    (fun a b => a.turn_number ≤ b.turn_number)

/-- The output loop of `ranked_select`: every entry is emitted in full
except the last, which — when it overflows the budget — is either
byte-sliced to the remaining budget (a possible mid-character panic,
`none`) or dropped when at most 50 bytes remain. -/
def render_loop : List TurnSearchResult → Nat → String → Option String
  | [], _, out => some out
  | [t], budget, out =>
    let f := format_turn_for_injection t
    if budget < rsLen out + rsLen f then
      let remaining := budget - rsLen out
      if 50 < remaining then (byteSlice f (min remaining (rsLen f))).map (out ++ ·)
      else some out
    else some (out ++ f)
  | t :: t2 :: rest, budget, out =>
    render_loop (t2 :: rest) budget (out ++ format_turn_for_injection t)

/-- `ranked_select` from `src/inject/ranking.rs`: score, sort, select
within budget, re-sort chronologically, render. -/
def ranked_select (recencyOf : TurnSearchResult → ℚ) (turns : List TurnSearchResult)
    (context_files : List String) (budget_chars : Nat) : Option String :=
  render_loop (chrono_selected recencyOf turns context_files budget_chars) budget_chars ""

/-- Number of leading entries of the sorted list whose running size
total stays within the budget (the full-inclusion prefix of the
specification's greedy description). -/
def cumFits : List (ℚ × TurnSearchResult) → Nat → Nat
  | [], _ => 0
  | st :: rest, budget =>
    if entrySize st.2 ≤ budget then 1 + cumFits rest (budget - entrySize st.2) else 0

/-- Total formatted size of a scored-entry list. -/
def sizeSum (l : List (ℚ × TurnSearchResult)) : Nat :=
  (l.map (fun st => entrySize st.2)).sum

/-- The specification's greedy selection, amended: take the maximal
prefix that fits the budget; when an entry was skipped and *more than*
100 characters of budget remain, additionally take that top skipped
entry (for truncation). -/
def spec_selected (l : List (ℚ × TurnSearchResult)) (budget : Nat) :
    List (ℚ × TurnSearchResult) :=
  let k := cumFits l budget
  if k < l.length ∧ 100 < budget - sizeSum (l.take k) then l.take (k + 1) else l.take k

/-- The specification's greedy selection exactly as C3 words it: the top
skipped entry is included already when *at least* 100 characters
remain. -/
def spec_selected_geq (l : List (ℚ × TurnSearchResult)) (budget : Nat) :
    List (ℚ × TurnSearchResult) :=
  let k := cumFits l budget
  if k < l.length ∧ 100 ≤ budget - sizeSum (l.take k) then l.take (k + 1) else l.take k

/-- When the head entry fits, the greedy specification selection takes
it and continues with the reduced budget. -/
theorem spec_selected_cons (st : ℚ × TurnSearchResult)
    (rest : List (ℚ × TurnSearchResult)) (b : Nat)
    (hf : entrySize st.2 ≤ b) :
    spec_selected (st :: rest) b = st :: spec_selected rest (b - entrySize st.2) := by
  unfold spec_selected
  simp only [cumFits, if_pos hf]
  have hlen : (1 + cumFits rest (b - entrySize st.2) < (st :: rest).length) =
      (cumFits rest (b - entrySize st.2) < rest.length) := by
    simp [List.length_cons]
    omega
  have htake : (st :: rest).take (1 + cumFits rest (b - entrySize st.2)) =
      st :: rest.take (cumFits rest (b - entrySize st.2)) := by
    rw [Nat.add_comm, List.take_succ_cons]
  have htake2 : (st :: rest).take (1 + cumFits rest (b - entrySize st.2) + 1) =
      st :: rest.take (cumFits rest (b - entrySize st.2) + 1) := by
    rw [Nat.add_comm 1 (cumFits rest (b - entrySize st.2)), List.take_succ_cons]
  rw [htake, htake2]
  have hsum : b - sizeSum (st :: rest.take (cumFits rest (b - entrySize st.2))) =
      b - entrySize st.2 - sizeSum (rest.take (cumFits rest (b - entrySize st.2))) := by
    simp [sizeSum]
    omega
  by_cases hc : cumFits rest (b - entrySize st.2) < rest.length ∧
      100 < b - entrySize st.2 - sizeSum (rest.take (cumFits rest (b - entrySize st.2)))
  · rw [if_pos hc, if_pos ⟨by rw [hlen]; exact hc.1, by rw [hsum]; exact hc.2⟩]
  · rw [if_neg hc, if_neg (fun hcon => hc ⟨by rw [← hlen]; exact hcon.1,
      by rw [← hsum]; exact hcon.2⟩)]

/-- The selection loop computes exactly the greedy specification
selection over the budget that remains. -/
theorem select_within_eq_spec (l : List (ℚ × TurnSearchResult)) :
    ∀ (budget used : Nat), used ≤ budget →
      select_within l budget used = spec_selected l (budget - used) := by
  induction l with
  | nil =>
    intro budget used _
    simp [select_within, spec_selected, cumFits]
  | cons st rest ih =>
    intro budget used hub
    by_cases hov : budget < used + entrySize st.2
    · have hnof : ¬ entrySize st.2 ≤ budget - used := by omega
      rw [show select_within (st :: rest) budget used =
          (if 100 < budget - used then [st] else []) from by
        simp [select_within, if_pos hov]]
      unfold spec_selected
      simp only [cumFits, if_neg hnof]
      simp only [List.take_zero, sizeSum, List.map_nil, List.sum_nil, Nat.sub_zero]
      by_cases h100 : 100 < budget - used
      · rw [if_pos h100, if_pos ⟨by simp, h100⟩]
        simp
      · rw [if_neg h100, if_neg (fun hc => h100 hc.2)]
    · have hused : used + entrySize st.2 ≤ budget := by omega
      have hf : entrySize st.2 ≤ budget - used := by omega
      rw [show select_within (st :: rest) budget used =
          st :: select_within rest budget (used + entrySize st.2) from by
        simp [select_within, if_neg hov]]
      rw [ih budget (used + entrySize st.2) hused]
      rw [spec_selected_cons st rest (budget - used) hf]
      congr 1
      congr 1
      omega

/-- C3 (amended, proved): `ranked_select` sorts the scored turns
best-first, selects the maximal prefix whose formatted sizes fit the
budget, additionally keeps the top skipped entry for truncation when
*strictly more than* 100 characters of budget remain, and re-orders the
selection by ascending turn number for output. -/
theorem ranked_select_selection (recencyOf : TurnSearchResult → ℚ)
    (turns : List TurnSearchResult) (context_files : List String) (budget : Nat) :
    List.Sorted (fun a b : ℚ × TurnSearchResult => b.1 ≤ a.1)
      (sorted_scored recencyOf turns context_files) ∧
    select_within (sorted_scored recencyOf turns context_files) budget 0 =
      spec_selected (sorted_scored recencyOf turns context_files) budget ∧
    List.Sorted (fun a b : TurnSearchResult => a.turn_number ≤ b.turn_number)
      (chrono_selected recencyOf turns context_files budget) ∧
    (chrono_selected recencyOf turns context_files budget).Perm
      (selected_turns recencyOf turns context_files budget) := by
  refine ⟨?_, ?_, ?_, ?_⟩
  · haveI : IsTotal (ℚ × TurnSearchResult) (fun a b => b.1 ≤ a.1) :=
      ⟨fun a b => le_total b.1 a.1⟩
    haveI : IsTrans (ℚ × TurnSearchResult) (fun a b => b.1 ≤ a.1) :=
      ⟨fun _ _ _ hab hbc => le_trans hbc hab⟩
    exact List.sorted_insertionSort _ _
  · have := select_within_eq_spec (sorted_scored recencyOf turns context_files) budget 0
      (Nat.zero_le budget)
    simpa using this
  · haveI : IsTotal TurnSearchResult (fun a b => a.turn_number ≤ b.turn_number) :=
      ⟨fun a b => Nat.le_total a.turn_number b.turn_number⟩
    haveI : IsTrans TurnSearchResult (fun a b => a.turn_number ≤ b.turn_number) :=
      ⟨fun _ _ _ hab hbc => Nat.le_trans hab hbc⟩
    exact List.sorted_insertionSort _ _
  · exact List.perm_insertionSort _ _

/-- A 37-byte user request turn (formatted entry size 50). -/
def ctTurn1 : TurnSearchResult :=
  { turn_id := 1, session_id := "s", turn_number := 1,
    timestamp := "2024-01-01 00:00:00", role := "user", turn_type := "request",
    content := String.mk (List.replicate 37 'a'), content_summary := none,
    rank := 0, files := [] }

/-- A 188-byte shell-command turn (formatted entry size 200). -/
def ctTurn2 : TurnSearchResult :=
  { turn_id := 2, session_id := "s", turn_number := 2,
    timestamp := "2024-01-01 00:00:00", role := "assistant", turn_type := "bash_cmd",
    content := String.mk (List.replicate 188 'b'), content_summary := none,
    rank := 0, files := [] }

/-- With unit recency, the request turn scores 13/10. -/
theorem score_ctTurn1 : score_turn (fun _ => 1) ctTurn1 [] = 13/10 := by
  have hlen : rsLen ctTurn1.content = 37 := by decide
  unfold score_turn
  rw [hlen]
  norm_num [ctTurn1, type_weight, file_affinity]

/-- With unit recency, the shell-command turn scores 33/100. -/
theorem score_ctTurn2 : score_turn (fun _ => 1) ctTurn2 [] = 33/100 := by
  have hlen : rsLen ctTurn2.content = 188 := by decide
  unfold score_turn
  rw [hlen]
  norm_num [ctTurn2, type_weight, file_affinity]

/-- The two-turn example sorts with the request first. -/
theorem sorted_scored_ct :
    sorted_scored (fun _ => 1) [ctTurn1, ctTurn2] [] =
      [(score_turn (fun _ => 1) ctTurn1 [], ctTurn1),
       (score_turn (fun _ => 1) ctTurn2 [], ctTurn2)] := by
  unfold sorted_scored
  simp only [List.map_cons, List.map_nil, List.insertionSort, List.orderedInsert]
  rw [if_pos]
  rw [score_ctTurn1, score_ctTurn2]
  norm_num

/-- C3 (claim as stated, refuted): at budget 150 with entry sizes 50 and
200, exactly 100 characters remain when the second entry is reached; the
claim's "≥ 100" rule selects it, but the code's `remaining > 100` test
drops it. -/
theorem ranked_select_geq_counterexample :
    ctTurn2 ∈ (spec_selected_geq
        (sorted_scored (fun _ => 1) [ctTurn1, ctTurn2] []) 150).map (fun st => st.2) ∧
    ctTurn2 ∉ selected_turns (fun _ => 1) [ctTurn1, ctTurn2] [] 150 := by
  unfold selected_turns
  rw [sorted_scored_ct]
  constructor
  · decide
  · decide

/-- Budget monotonicity of the selection loop: whatever is selected
under the smaller budget is selected under the larger one, from the same
sorted list and accumulator. -/
theorem select_within_monotone (l : List (ℚ × TurnSearchResult)) :
    ∀ (b1 b2 used : Nat), b1 ≤ b2 →
      ∀ x ∈ select_within l b1 used, x ∈ select_within l b2 used := by
  induction l with
  | nil => intro b1 b2 used _ x hx; simp [select_within] at hx
  | cons st rest ih =>
    intro b1 b2 used hb x hx
    by_cases h1 : b1 < used + entrySize st.2
    · rw [show select_within (st :: rest) b1 used =
          (if 100 < b1 - used then [st] else []) from by
        simp [select_within, if_pos h1]] at hx
      have h100 : 100 < b1 - used := by
        by_contra hc
        rw [if_neg hc] at hx
        simp at hx
      rw [if_pos h100] at hx
      have hxst : x = st := by simpa using hx
      by_cases h2 : b2 < used + entrySize st.2
      · rw [show select_within (st :: rest) b2 used =
            (if 100 < b2 - used then [st] else []) from by
          simp [select_within, if_pos h2]]
        rw [if_pos (show 100 < b2 - used by omega)]
        simp [hxst]
      · rw [show select_within (st :: rest) b2 used =
            st :: select_within rest b2 (used + entrySize st.2) from by
          simp [select_within, if_neg h2]]
        simp [hxst]
    · have h2 : ¬ b2 < used + entrySize st.2 := by omega
      rw [show select_within (st :: rest) b1 used =
          st :: select_within rest b1 (used + entrySize st.2) from by
        simp [select_within, if_neg h1]] at hx
      rw [show select_within (st :: rest) b2 used =
          st :: select_within rest b2 (used + entrySize st.2) from by
        simp [select_within, if_neg h2]]
      rcases List.mem_cons.mp hx with h | h
      · exact h ▸ List.mem_cons_self _ _
      · exact List.mem_cons_of_mem _ (ih b1 b2 (used + entrySize st.2) hb x h)

/-- C8 (confirmed): for fixed turns, active files and recency, raising
the budget can only add turns to the ranked selection, never remove
them. -/
theorem ranked_select_budget_monotone (recencyOf : TurnSearchResult → ℚ)
    (turns : List TurnSearchResult) (context_files : List String)
    (b1 b2 : Nat) (hb : b1 ≤ b2) :
    ∀ t ∈ selected_turns recencyOf turns context_files b1,
      t ∈ selected_turns recencyOf turns context_files b2 := by
  intro t ht
  unfold selected_turns at ht ⊢
  obtain ⟨st, hst, rfl⟩ := List.mem_map.mp ht
  exact List.mem_map_of_mem _
    (select_within_monotone (sorted_scored recencyOf turns context_files) b1 b2 0 hb st hst)

/-- Witness for C8: the single request turn selected at budget 100 is
still selected at budget 200. -/
theorem ranked_select_budget_monotone_witness :
    ctTurn1 ∈ selected_turns (fun _ => 1) [ctTurn1] [] 200 :=
  ranked_select_budget_monotone (fun _ => 1) [ctTurn1] [] 100 200 (by decide)
    ctTurn1 (by decide)

/-! ## Context builder (`src/inject/mod.rs`)

The SQL query results feeding `build_startup_context` and
`build_compact_context` (active plan, project structure, codebase map,
recent sessions, catch-up turn, knowledge rows, active files, session
turns) are fields of the input-state structures below. -/

/-- `Vec::join(sep)`: concatenate with `sep` between elements. -/
def joinSep (sep : String) : List String → String
  | [] => ""
  | [p] => p
  | p :: q :: rest => p ++ sep ++ joinSep sep (q :: rest)

/-- The startup/compact budget constants. -/
def STARTUP_BUDGET : Nat := 8000

/-- ~4 chars per token, aim for ~4000 tokens = 16000 chars. -/
def COMPACT_BUDGET : Nat := 16000

/-- The fixed memory-availability header both context builders open
with. -/
def HEADER : String :=
  "[ClaudeRLM] You have persistent project memory powered by ClaudeRLM. Everything in this session — conversations, code edits, file reads, and shell commands — is being indexed automatically and persists across sessions.\n\nYou have MCP tools to search your memory:\n- memory_search: Find past discussions, code changes, and context\n- memory_decisions: Recall why certain choices were made\n- memory_files: See change history for specific files\n- memory_symbols: Query code structure (functions, classes, structs)\n\nUse these proactively. Before starting a task, check if you\'ve worked on something similar before. When the user references past work, search your memory instead of asking them to repeat themselves. When you encounter an unfamiliar part of the codebase, check memory_symbols and memory_files for prior context.\n\nBriefly greet the user and let them know project memory is loaded. Mention any notable context from the sections below (recent sessions, knowledge, git changes) if present.\n\n"

/-- A progress row of the active plan. -/
structure ProgressEntry where
  file_path : String
  edit_count : Nat
deriving Repr, DecidableEq

/-- `PlanInfo` from `src/indexer/plans.rs`. -/
structure PlanInfo where
  id : Nat
  session_id : String
  plan_file_path : String
  title : Option String
  content : String
  status : String
  target_files : List String
  created_at : String
  updated_at : String
  progress : List ProgressEntry
deriving Repr, DecidableEq

/-- `SessionSummary` from `src/db/search.rs`. -/
structure SessionSummary where
  id : String
  project_dir : String
  started_at : String
  ended_at : Option String
  summary : Option String
deriving Repr, DecidableEq

/-- A symbol entry of the codebase map. -/
structure SymbolMapEntry where
  name : String
  kind : String
deriving Repr, DecidableEq

/-- A file entry of the codebase map. -/
structure FileMapEntry where
  file_path : String
  symbols : List SymbolMapEntry
  truncated : Bool
  score : Nat
deriving Repr, DecidableEq

/-- `ProjectStructure` from `src/db/search.rs`. -/
structure ProjectStructure where
  total_files : Nat
  total_symbols : Nat
  symbol_kinds : List (String × Nat)
  directories : List (String × Nat)
deriving Repr, DecidableEq

/-- The query results `build_startup_context` reads. -/
structure StartupDb where
  active_plan : Option PlanInfo
  proj_structure : ProjectStructure
  codebase : List FileMapEntry
  recent_sessions : List SessionSummary
  catchup : Option String
  knowledge : String → List (String × String × ℚ)
  project_dir : String

/-- `capitalize`: upper-case the first character. -/
def capitalize (s : String) : String :=
  match s.data with
  | [] => ""
  | c :: rest => String.mk (c.toUpper :: rest)

/-- Round to the nearest integer, ties to even — the rounding of Rust's
`{:.0}` float formatting. -/
def roundHalfEven (q : ℚ) : ℤ :=
  if q - ⌊q⌋ < 1/2 then ⌊q⌋
  else if (1 : ℚ)/2 < q - ⌊q⌋ then ⌊q⌋ + 1
  else if ⌊q⌋ % 2 = 0 then ⌊q⌋ else ⌊q⌋ + 1

/-- `format!("{:.0}", q)` for the percentage displays. -/
def fmtF64Round (q : ℚ) : String :=
  toString (roundHalfEven q)

/-- `format_plan_section` from `src/inject/mod.rs`. -/
def format_plan_section (plan : PlanInfo) (budget : Nat) : String :=
  let title := plan.title.getD "Untitled Plan"
  let s0 := "## Active Plan: " ++ title ++ " [" ++ plan.status ++ "]\nPlan file: " ++
    plan.plan_file_path ++ "\nCreated: " ++ plan.created_at ++ " | Updated: " ++
    plan.updated_at ++ "\n"
  let s1 := if plan.progress ≠ [] then
      s0 ++ "\nFiles edited:\n" ++
        String.join (plan.progress.map
          (fun p => "- " ++ p.file_path ++ " (" ++ toString p.edit_count ++ " edits)\n"))
    else s0
  let s2 := if plan.target_files ≠ [] then
      let touched := (plan.progress.filter (fun p =>
        plan.target_files.any (fun t =>
          p.file_path.endsWith t ∨ t.endsWith p.file_path))).length
      s1 ++ "\nTarget progress: " ++ toString touched ++ "/" ++
        toString plan.target_files.length ++ " files (" ++
        fmtF64Round ((touched : ℚ) / (plan.target_files.length : ℚ) * 100) ++ "%)\n"
    else s1
  let content_budget := min (budget - rsLen s2) 2000
  if 100 < content_budget then
    s2 ++ "\nPlan content:\n" ++ Inject.truncate plan.content content_budget ++ "\n"
  else s2

/-- `format_symbol`: kind-specific display of one symbol. -/
def format_symbol (name kind : String) : String :=
  match kind with
  | "struct" => "struct " ++ name
  | "enum" => "enum " ++ name
  | "trait" => "trait " ++ name
  | "function" => "fn " ++ name ++ "()"
  | "const" => "const " ++ name
  | "impl" => "impl " ++ name
  | "type" => "type " ++ name
  | _ => name

/-- `str::replace('\\', "/")`. -/
def replaceBackslash (s : String) : String :=
  String.mk (s.data.map (fun c => if c = '\\' then '/' else c))

/-- `strip_prefix(p).unwrap_or(s)` over the character lists. -/
def stripPrefixOr (s p : String) : String :=
  if p.data.isPrefixOf s.data then String.mk (s.data.drop p.data.length) else s

/-- `trim_start_matches('/')`. -/
def trimStartSlashes (s : String) : String :=
  String.mk (s.data.dropWhile (fun c => c = '/'))

/-- `trim_end_matches('/')`. -/
def trimEndSlashes (s : String) : String :=
  String.mk ((s.data.reverse.dropWhile (fun c => c = '/')).reverse)

/-- `make_relative`: normalize to forward slashes, strip the project
prefix and leading slashes. -/
def make_relative (path pre : String) : String :=
  trimStartSlashes (stripPrefixOr (replaceBackslash path) pre)

/-- Order-preserving deduplication of map entries by relative path (the
`HashSet::insert` loop of `format_codebase_map`). -/
def dedupByRel (pre : String) : List FileMapEntry → List String → List FileMapEntry
  | [], _ => []
  | e :: rest, seen =>
    let rel := make_relative e.file_path pre
    if rel ∈ seen then dedupByRel pre rest seen
    else e :: dedupByRel pre rest (rel :: seen)

/-- The per-file loop of `format_codebase_map`: append file lines while
they fit the budget, counting the files shown. -/
def mapFileLoop (budget : Nat) (pre : String) :
    List FileMapEntry → String → Nat → String × Nat
  | [], s, shown => (s, shown)
  | e :: rest, s, shown =>
    let rel_path := make_relative e.file_path pre
    let line := rel_path ++ "\n  " ++
      joinSep ", " (e.symbols.map (fun sy => format_symbol sy.name sy.kind)) ++
      (if e.truncated then ", ..." else "") ++ "\n"
    if budget < rsLen s + rsLen line then (s, shown)
    else mapFileLoop budget pre rest (s ++ line) (shown + 1)

/-- `format_codebase_map` from `src/inject/mod.rs`. -/
def format_codebase_map (db : StartupDb) (budget : Nat) : String :=
  if db.proj_structure.total_symbols = 0 then "" else
  let kinds_str := (db.proj_structure.symbol_kinds.take 6).map
    (fun kc => toString kc.2 ++ " " ++ kc.1)
  let dirs_str := (db.proj_structure.directories.take 8).map
    (fun dc => dc.1 ++ " (" ++ toString dc.2 ++ ")")
  let s0 := "## Project Structure (" ++ toString db.proj_structure.total_symbols ++
    " symbols across " ++ toString db.proj_structure.total_files ++ " files)\n" ++
    "Symbols: " ++ joinSep ", " kinds_str ++ "\n"
  let s1 := if dirs_str ≠ [] then s0 ++ "Directories: " ++ joinSep ", " dirs_str ++ "\n" else s0
  if db.codebase = [] then s1 else
  let s2 := s1 ++ "\n"
  let pre := trimEndSlashes (replaceBackslash db.project_dir)
  let deduped := dedupByRel pre db.codebase []
  let loopOut := mapFileLoop budget pre deduped s2 0
  let remaining := deduped.length - loopOut.2
  if 0 < remaining then
    loopOut.1 ++ "...and " ++ toString remaining ++ " more files\n"
  else loopOut.1

/-- The inner entry loop of the knowledge section: append entries while
the section stays within the remaining budget (`break` on overflow). -/
def knowledgeEntriesLoop (budget_remaining : Nat) :
    List (String × String × ℚ) → String → String
  | [], sec => sec
  | (subject, content, confidence) :: rest, sec =>
    let entry := "- **" ++ subject ++ "** (" ++ fmtF64Round (confidence * 100) ++
      "%): " ++ Inject.truncate content 150 ++ "\n"
    if budget_remaining < rsLen sec + rsLen entry then sec
    else knowledgeEntriesLoop budget_remaining rest (sec ++ entry)

/-- The category order of the startup knowledge section. -/
def knowledge_categories : List String :=
  ["decision", "preference", "convention", "pattern", "architecture", "bug_fix"]

/-- The per-category loop of the knowledge section; a non-empty category
pushes its header unconditionally, then its entries under the budget. -/
def knowledgeLoop (kb : String → List (String × String × ℚ)) (budget_remaining : Nat) :
    List String → String → String
  | [], sec => sec
  | cat :: rest, sec =>
    let entries := kb cat
    let sec1 := if entries ≠ [] then
        knowledgeEntriesLoop budget_remaining entries (sec ++ "### " ++ capitalize cat ++ "\n")
      else sec
    knowledgeLoop kb budget_remaining rest sec1

/-- The per-session loop of the recent-sessions section: append entries
while the section stays within *half* the remaining budget. -/
def sessionsLoop (budget_remaining : Nat) : List SessionSummary → String → String
  | [], sec => sec
  | ss :: rest, sec =>
    let summary := ss.summary.getD "(no summary)"
    let ended := ss.ended_at.getD "(in progress)"
    let idprefix := String.mk (takeFloor ss.id.data (min 8 (rsLen ss.id)))
    let entry := "- " ++ idprefix ++ " (started: " ++ ss.started_at ++ ", ended: " ++
      ended ++ "): " ++ Inject.truncate summary 200 ++ "\n"
    if budget_remaining / 2 < rsLen sec + rsLen entry then sec
    else sessionsLoop budget_remaining rest (sec ++ entry)

/-- `build_startup_context` from `src/inject/mod.rs`: header, active
plan, codebase map, recent sessions, recent catch-up, knowledge buckets,
joined with blank lines. -/
def build_startup_context (db : StartupDb) : String :=
  let budget0 := STARTUP_BUDGET - rsLen HEADER
  let planSec : Option String := db.active_plan.map (fun p => format_plan_section p budget0)
  let budget1 := match planSec with
    | some s => budget0 - rsLen s
    | none => budget0
  let map_section := format_codebase_map db (budget1 / 2)
  let budget2 := if map_section ≠ "" then budget1 - rsLen map_section else budget1
  let sessSec : Option String :=
    if db.recent_sessions ≠ [] then
      some (sessionsLoop budget2 db.recent_sessions "## Recent Sessions\n")
    else none
  let budget3 := match sessSec with
    | some s => budget2 - rsLen s
    | none => budget2
  let catchSec : Option String :=
    db.catchup.map (fun content => "## Recent Git Changes\n" ++ Inject.truncate content 800 ++ "\n")
  let budget4 := match catchSec with
    | some s => budget3 - rsLen s
    | none => budget3
  let ks := knowledgeLoop db.knowledge budget4 knowledge_categories ""
  let parts := [HEADER] ++ planSec.toList ++
    (if map_section ≠ "" then [map_section] else []) ++
    sessSec.toList ++ catchSec.toList ++
    (if ks ≠ "" then ["## Project Knowledge\n" ++ ks] else [])
  joinSep "\n" parts

/-- UTF-8 length distributes over list append. -/
theorem utf8Len_append (l1 l2 : List Char) :
    utf8Len (l1 ++ l2) = utf8Len l1 + utf8Len l2 := by
  induction l1 with
  | nil => simp [utf8Len]
  | cons c cs ih =>
    simp only [List.cons_append, utf8Len, List.foldr_cons] at ih ⊢
    omega

/-- Byte length distributes over string append. -/
theorem rsLen_append (s t : String) : rsLen (s ++ t) = rsLen s + rsLen t := by
  rw [rsLen, rsLen, rsLen, String.data_append, utf8Len_append]

/-- Byte length of a replicated character. -/
theorem utf8Len_replicate (n : Nat) (c : Char) :
    utf8Len (List.replicate n c) = n * c.utf8Size := by
  induction n with
  | zero => simp [utf8Len]
  | succ m ih =>
    simp only [List.replicate_succ, utf8Len, List.foldr_cons] at ih ⊢
    rw [ih]
    ring

/-- The state holding only an active plan, as `build_startup_context`
reads it. -/
def planOnlyDb (plan : PlanInfo) : StartupDb :=
  { active_plan := some plan,
    proj_structure := { total_files := 0, total_symbols := 0, symbol_kinds := [], directories := [] },
    codebase := [], recent_sessions := [], catchup := none,
    knowledge := fun _ => [], project_dir := "" }

/-- The plan whose 8,000-character title alone exhausts the startup
budget. -/
def c1Plan : PlanInfo :=
  { id := 0, session_id := "s", plan_file_path := "p.md",
    title := some (String.mk (List.replicate 8000 'a')), content := "",
    status := "active", target_files := [], created_at := "c", updated_at := "u",
    progress := [] }

/-- A store state whose only content is the oversized active plan. -/
def c1Db : StartupDb := planOnlyDb c1Plan

/-- The fixed head of the plan section is not budget-limited: it always
carries the full title, whatever the budget. -/
theorem format_plan_section_title_large (t : String) (b : Nat) :
    16 + rsLen t ≤ rsLen (format_plan_section
      { id := 0, session_id := "s", plan_file_path := "p.md", title := some t,
        content := "", status := "active", target_files := [], created_at := "c",
        updated_at := "u", progress := [] } b) := by
  have h16 : rsLen "## Active Plan: " = 16 := by decide
  unfold format_plan_section
  norm_num
  split
  · simp only [rsLen_append, h16]
    omega
  · simp only [rsLen_append, h16]
    omega

/-- On a plan-only state the startup context is the header joined with
the plan section. -/
theorem build_startup_context_plan_only (plan : PlanInfo) :
    build_startup_context (planOnlyDb plan) =
      joinSep "
" [HEADER, format_plan_section plan (STARTUP_BUDGET - rsLen HEADER)] := by
  unfold build_startup_context
  simp only [planOnlyDb, Option.map_some]
  norm_num [format_codebase_map, knowledgeLoop, knowledge_categories]

/-- C1 (code bug, exhibited): at the concrete store `c1Db` the startup
context is longer than 8,000 bytes — the plan section's fixed parts are
pushed without any budget check, although `STARTUP_BUDGET` is documented
as the maximum injected size and the spec states the budget invariant. -/
theorem build_startup_context_exceeds_budget :
    8000 < rsLen (build_startup_context c1Db) := by
  have hrun := build_startup_context_plan_only c1Plan
  rw [show c1Db = planOnlyDb c1Plan from rfl, hrun]
  show 8000 < rsLen (HEADER ++ "\n" ++ format_plan_section c1Plan (STARTUP_BUDGET - rsLen HEADER))
  simp only [rsLen_append]
  have hbig := format_plan_section_title_large (String.mk (List.replicate 8000 'a'))
    (STARTUP_BUDGET - rsLen HEADER)
  have hX : rsLen (String.mk (List.replicate 8000 'a')) = 8000 := by
    show utf8Len (List.replicate 8000 'a') = 8000
    rw [utf8Len_replicate]
    decide
  rw [hX] at hbig
  have hplan : format_plan_section c1Plan (STARTUP_BUDGET - rsLen HEADER) =
      format_plan_section
        { id := 0, session_id := "s", plan_file_path := "p.md",
          title := some (String.mk (List.replicate 8000 'a')), content := "",
          status := "active", target_files := [], created_at := "c",
          updated_at := "u", progress := [] } (STARTUP_BUDGET - rsLen HEADER) := rfl
  rw [hplan]
  omega

/-- The query results `build_compact_context` reads for one session. -/
structure CompactDb where
  active_plan : Option PlanInfo
  active_files : List String
  session_turns : List TurnSearchResult

/-- The sections `build_compact_context` pushes after the header: plan,
checkpoint section, user requests, active files, then the ranked
remainder under what is left of the budget (the running size is counted
over the header and all previous sections, as in the source).  `none`
models a panic inside `ranked_select`'s output truncation. -/
def compact_tail (recencyOf : TurnSearchResult → ℚ) (db : CompactDb) :
    Option (List String) :=
  let planSecs : List String :=
    match db.active_plan with
    | some plan => [format_plan_section plan (COMPACT_BUDGET / 4)]
    | none => []
  let checkpoints := db.session_turns.filter (fun t => t.turn_type = "checkpoint")
  let cpSecs : List String :=
    if checkpoints.isEmpty then []
    else ["## Session Checkpoint\n" ++
      String.join (checkpoints.map (fun cp => Inject.truncate cp.content 2000 ++ "\n"))]
  let requests := db.session_turns.filter (fun t => t.turn_type = "request")
  let reqSecs : List String :=
    if requests.isEmpty then []
    else ["## User Requests\n" ++
      String.join (requests.map
        (fun r => toString r.turn_number ++ ". " ++ Inject.truncate r.content 300 ++ "\n"))]
  let fileSecs : List String :=
    if db.active_files.isEmpty then []
    else ["## Active Files\n" ++
      String.join (db.active_files.map (fun f => "- " ++ f ++ "\n"))]
  let sections := planSecs ++ cpSecs ++ reqSecs ++ fileSecs
  let current_size := ((HEADER :: sections).map rsLen).sum
  let remaining_budget := COMPACT_BUDGET - current_size
  let rankable := db.session_turns.filter
    (fun t => t.turn_type ≠ "request" ∧ t.turn_type ≠ "checkpoint")
  if ¬ rankable.isEmpty ∧ 200 < remaining_budget then
    match ranked_select recencyOf rankable db.active_files remaining_budget with
    | none => none
    | some rc =>
      some (if rc ≠ "" then sections ++ ["## Session Activity\n" ++ rc] else sections)
  else
    some sections

/-- `build_compact_context` from `src/inject/mod.rs`: the empty string
when the session has no turns, otherwise the header followed by the
sections, joined with blank lines. -/
def build_compact_context (recencyOf : TurnSearchResult → ℚ) (db : CompactDb) :
    Option String :=
  if db.session_turns.isEmpty then some "" else
  (compact_tail recencyOf db).map (fun sections => joinSep "\n" (HEADER :: sections))

/-- Joining a non-empty list starts with its head. -/
theorem joinSep_cons_prefix (sep x : String) (xs : List String) :
    ∃ t, joinSep sep (x :: xs) = x ++ t := by
  cases xs with
  | nil =>
    refine ⟨"", ?_⟩
    show x = x ++ ""
    apply String.ext
    simp [String.data_append]
  | cons y ys =>
    refine ⟨sep ++ joinSep sep (y :: ys), ?_⟩
    show x ++ sep ++ joinSep sep (y :: ys) = x ++ (sep ++ joinSep sep (y :: ys))
    apply String.ext
    simp [String.data_append]

/-- A session with no turns at all. -/
def emptyCompactDb : CompactDb :=
  { active_plan := none, active_files := [], session_turns := [] }

/-- C9 (claim as stated, refuted): on a session with no turns,
`build_compact_context` returns the empty string, which does not begin
with the memory-availability header. -/
theorem build_compact_context_no_turns_no_header :
    build_compact_context (fun _ => 1) emptyCompactDb = some "" ∧
    ¬ ∃ t, "" = HEADER ++ t := by
  constructor
  · rfl
  · rintro ⟨t, ht⟩
    have hlen := congrArg rsLen ht
    rw [rsLen_append] at hlen
    have hH : 0 < rsLen HEADER := by decide
    have h0 : rsLen "" = 0 := rfl
    omega

/-- C9 (amended, proved): whenever the session has at least one turn and
the build does not panic, the compact context begins with the fixed
memory-availability header. -/
theorem build_compact_context_starts_with_header (recencyOf : TurnSearchResult → ℚ)
    (db : CompactDb) (hne : db.session_turns.isEmpty = false) (out : String)
    (hout : build_compact_context recencyOf db = some out) :
    ∃ t, out = HEADER ++ t := by
  unfold build_compact_context at hout
  rw [hne] at hout
  simp only [Bool.false_eq_true, if_false] at hout
  rw [Option.map_eq_some'] at hout
  obtain ⟨sections, -, hjoin⟩ := hout
  obtain ⟨t, ht⟩ := joinSep_cons_prefix "\n" HEADER sections
  exact ⟨t, by rw [← hjoin, ht]⟩

/-- A session holding a single request turn. -/
def oneTurnCompactDb : CompactDb :=
  { active_plan := none, active_files := [], session_turns := [ctTurn1] }

/-- Witness for C9 (amended): with one request turn the compact context
is the header joined with the user-requests section, and it begins with
the header. -/
theorem build_compact_context_starts_with_header_witness :
    ∃ t, joinSep "\n" (HEADER ::
        ["## User Requests\n" ++ String.join
          [toString ctTurn1.turn_number ++ ". " ++ Inject.truncate ctTurn1.content 300 ++ "\n"]]) =
      HEADER ++ t :=
  build_compact_context_starts_with_header (fun _ => 1) oneTurnCompactDb rfl
    (joinSep "\n" (HEADER ::
      ["## User Requests\n" ++ String.join
        [toString ctTurn1.turn_number ++ ". " ++ Inject.truncate ctTurn1.content 300 ++ "\n"]]))
    rfl
